import Mathlib

/-!
# Verification of btcd's txscript signature verification cache

Shallow embedding of `txscript/sigcache.go` and `txscript/sigcache_string.go`.

Modelling choices:

* Bytes are `Nat`, byte strings (`[]byte`, `wire.ShaHash`, Go `string`) are
  `List Nat`.
* The Go maps `map[sigKey]struct{}` / `map[string]struct{}` are modelled as a
  `List` of the resident keys whose list order is the map's iteration order.
  Go randomizes iteration order between scans, so theorems about sequences of
  calls quantify over an arbitrary order-permuting function applied to the
  resident list before each `Add` (`AddEvent.reorder`).
* SHA-256 (`crypto/sha256`), `btcec.Signature.Serialize` and
  `btcec.PublicKey.SerializeCompressed` are external libraries, not code of
  this repository: the hash is an explicit function parameter `hash`, and
  signatures / public keys enter the model as their serialized byte strings.
* `crypto/rand.Read` during `Add` is an `Option (List Nat)` argument:
  `none` models a failed read, `some r` a successful draw of bytes `r`.
  The nonce read in the constructors is a `List Nat` parameter (the
  post-construction state after a successful read).
* Locks (`sync.RWMutex`) only serialize calls; the sequential model reflects
  the state under the total order the lock imposes.
-/

/-- Go's `bytes.Compare a b > 0`: lexicographic comparison of byte strings,
a proper prefix being smaller. -/
def bytesGt : List Nat → List Nat → Bool
  | [], _ => false
  | _ :: _, [] => true
  | a :: as, b :: bs => if b < a then true else if a < b then false else bytesGt as bs

/-- The zero value of Go's `sigKey` type (`[wire.HashSize]byte`, i.e.
`[32]byte`): 32 zero bytes.  This is `zeroEntry` in `SigCache.Add`. -/
def zeroEntry : List Nat := List.replicate 32 0

/-- Go map assignment `m[key] = struct{}{}` on a presence-only map: a no-op
when the key is already resident, otherwise the key becomes resident.  The
new key is appended; any later iteration order is supplied by
`AddEvent.reorder`. -/
def mapInsert (key : List Nat) (m : List (List Nat)) : List (List Nat) :=
  if key ∈ m then m else m ++ [key]

/-- `newSigKey` of `sigcache.go`:
`SHA-256(nonce || sigHash || sig.Serialize() || pubKey.SerializeCompressed())`
copied into a fresh zero `[32]byte` array by `copy(key[:], hasher.Sum(nil))`
(hence the truncation/zero-padding to width 32; SHA-256 output has length 32,
making the copy exact). -/
def newSigKey (hash : List Nat → List Nat) (nonce sigHash sig pubKey : List Nat) :
    List Nat :=
  (hash (nonce ++ sigHash ++ sig ++ pubKey)).take 32 ++
    List.replicate (32 - (hash (nonce ++ sigHash ++ sig ++ pubKey)).length) 0

/-- `newSigKeyString` of `sigcache_string.go`: the same digest returned as a
Go `string` (here: the raw byte string, no fixed-width copy). -/
def newSigKeyString (hash : List Nat → List Nat) (nonce sigHash sig pubKey : List Nat) :
    List Nat :=
  hash (nonce ++ sigHash ++ sig ++ pubKey)

/-- The `SigCache` struct of `sigcache.go` (minus the lock): resident key
set `validSigs` (listed in iteration order), capacity `maxEntries`, and the
per-instance salt `cacheNonce`. -/
structure SigCache where
  validSigs : List (List Nat)
  maxEntries : Nat
  cacheNonce : List Nat

/-- `NewSigCache` after a successful nonce read: empty map, the given
capacity, and the nonce that was drawn. -/
def NewSigCache (maxEntries : Nat) (nonce : List Nat) : SigCache :=
  ⟨[], maxEntries, nonce⟩

/-- `SigCache.Exists`: derive the key and report membership. -/
def SigCache.Exists (hash : List Nat → List Nat) (s : SigCache)
    (sigHash sig pubKey : List Nat) : Bool :=
  decide (newSigKey hash s.cacheNonce sigHash sig pubKey ∈ s.validSigs)

/-- The `for sigEntry := range s.validSigs` eviction scan of `SigCache.Add`:
`foundEntry` starts as the zero key; the first iterated entry (and, while
`foundEntry` is still the zero value, each subsequent entry) is recorded as
fallback, and the loop breaks at the first entry greater than
`randHashBytes`.  The Go loop updates `foundEntry` before testing the break
condition; since the break returns the current entry itself, folding the
update into the recursive call is equivalent. -/
def sigCacheScan (randHashBytes foundEntry : List Nat) :
    List (List Nat) → List Nat
  | [] => foundEntry
  | sigEntry :: rest =>
    if bytesGt sigEntry randHashBytes then sigEntry
    else sigCacheScan randHashBytes
      (if foundEntry = zeroEntry then sigEntry else foundEntry) rest

/-- `SigCache.Add` of `sigcache.go`: no-op when `maxEntries <= 0`; when the
insertion would exceed capacity, draw random bytes (abandoning the add if
the read fails), scan for the entry to evict, delete it, then insert the
derived key. -/
def SigCache.Add (hash : List Nat → List Nat) (draw : Option (List Nat))
    (s : SigCache) (sigHash sig pubKey : List Nat) : SigCache :=
  if s.maxEntries ≤ 0 then s
  else if s.validSigs.length + 1 > s.maxEntries then
    match draw with
    | none => s
    | some randHashBytes =>
      ⟨mapInsert (newSigKey hash s.cacheNonce sigHash sig pubKey)
          (s.validSigs.erase (sigCacheScan randHashBytes zeroEntry s.validSigs)),
        s.maxEntries, s.cacheNonce⟩
  else
    ⟨mapInsert (newSigKey hash s.cacheNonce sigHash sig pubKey) s.validSigs,
      s.maxEntries, s.cacheNonce⟩

/-- The `StringSigCache` struct of `sigcache_string.go` (minus the lock). -/
structure StringSigCache where
  validSigs : List (List Nat)
  maxEntries : Nat
  cacheNonce : List Nat

/-- `NewStringSigCache` after a successful nonce read. -/
def NewStringSigCache (maxEntries : Nat) (nonce : List Nat) : StringSigCache :=
  ⟨[], maxEntries, nonce⟩

/-- `StringSigCache.Exists`. -/
def StringSigCache.Exists (hash : List Nat → List Nat) (s : StringSigCache)
    (sigHash sig pubKey : List Nat) : Bool :=
  decide (newSigKeyString hash s.cacheNonce sigHash sig pubKey ∈ s.validSigs)

/-- The eviction scan of `StringSigCache.Add`: identical to `sigCacheScan`
except that `foundEntry` is a Go `string`, whose zero value is the empty
string. -/
def stringSigCacheScan (randHashBytes foundEntry : List Nat) :
    List (List Nat) → List Nat
  | [] => foundEntry
  | sigEntry :: rest =>
    if bytesGt sigEntry randHashBytes then sigEntry
    else stringSigCacheScan randHashBytes
      (if foundEntry = ([] : List Nat) then sigEntry else foundEntry) rest

/-- `StringSigCache.Add` of `sigcache_string.go`. -/
def StringSigCache.Add (hash : List Nat → List Nat) (draw : Option (List Nat))
    (s : StringSigCache) (sigHash sig pubKey : List Nat) : StringSigCache :=
  if s.maxEntries ≤ 0 then s
  else if s.validSigs.length + 1 > s.maxEntries then
    match draw with
    | none => s
    | some randHashBytes =>
      ⟨mapInsert (newSigKeyString hash s.cacheNonce sigHash sig pubKey)
          (s.validSigs.erase (stringSigCacheScan randHashBytes ([] : List Nat) s.validSigs)),
        s.maxEntries, s.cacheNonce⟩
  else
    ⟨mapInsert (newSigKeyString hash s.cacheNonce sigHash sig pubKey) s.validSigs,
      s.maxEntries, s.cacheNonce⟩

/-- One `Add` call of a call sequence: the triple (signature and public key
already serialized), the outcome of the random draw the call would make, and
the map iteration order in force for that call, given as a permuting
function applied to the resident list. -/
structure AddEvent where
  sigHash : List Nat
  sig : List Nat
  pubKey : List Nat
  draw : Option (List Nat)
  reorder : List (List Nat) → List (List Nat)

/-- Run a sequence of `Add` calls against a `SigCache`, re-randomizing the
map iteration order before each call. -/
def SigCache.runAdds (hash : List Nat → List Nat) (evs : List AddEvent)
    (c : SigCache) : SigCache :=
  evs.foldl (fun c ev =>
    SigCache.Add hash ev.draw ⟨ev.reorder c.validSigs, c.maxEntries, c.cacheNonce⟩
      ev.sigHash ev.sig ev.pubKey) c

/-- Run a sequence of `Add` calls against a `StringSigCache`. -/
def StringSigCache.runAdds (hash : List Nat → List Nat) (evs : List AddEvent)
    (c : StringSigCache) : StringSigCache :=
  evs.foldl (fun c ev =>
    StringSigCache.Add hash ev.draw ⟨ev.reorder c.validSigs, c.maxEntries, c.cacheNonce⟩
      ev.sigHash ev.sig ev.pubKey) c

/-- The eviction choice as the specification words it, amended for the
all-zero corner case: the first resident entry, in iteration order, whose
key is greater than the random draw; failing that, the first entry whose key
differs from the all-zero key; failing that (the sole resident entry is the
all-zero key, or the map is empty), the all-zero key itself. -/
def evictSpec (s : List (List Nat)) (randHashBytes : List Nat) : List Nat :=
  match s.find? (fun k => bytesGt k randHashBytes) with
  | some k => k
  | none =>
    match s.find? (fun k => decide (k ≠ zeroEntry)) with
    | some k => k
    | none => zeroEntry

/-- A 32-byte key of ones, used in concrete instantiations. -/
def keyOne : List Nat := List.replicate 32 1

/-- A 32-byte key of twos, used in concrete instantiations. -/
def keyTwo : List Nat := List.replicate 32 2

/-- A maximal 32-byte random draw: no SHA-256 output exceeds it except
itself, so an eviction scan against it falls through to the fallback. -/
def randAll255 : List Nat := List.replicate 32 255

/-- A constant hash function, used to steer concrete instantiations. -/
def constHash (k : List Nat) : List Nat → List Nat := fun _ => k

/-- A three-way selector hash for concrete divergence scenarios: preimage
`[0]` yields the all-zero key, `[1]` yields `keyOne`, all else `keyTwo`. -/
def selHash : List Nat → List Nat :=
  fun bs => if bs = [0] then zeroEntry else if bs = [1] then keyOne else keyTwo

/-- An injective hash with 32-wide output, used as a concrete stand-in for a
collision-free SHA-256: the first byte position carries an injective code of
the whole input. -/
def encHash : List Nat → List Nat :=
  fun bs => Encodable.encode bs :: List.replicate 31 0

theorem sigCacheScan_cons (r f e : List Nat) (rest : List (List Nat)) :
    sigCacheScan r f (e :: rest) =
      if bytesGt e r then e
      else sigCacheScan r (if f = zeroEntry then e else f) rest := rfl

theorem sigCacheScan_mem_or (r f : List Nat) (s : List (List Nat)) :
    sigCacheScan r f s ∈ s ∨ sigCacheScan r f s = f := by
  induction s generalizing f with
  | nil => exact Or.inr rfl
  | cons e rest ih =>
    rw [sigCacheScan_cons]
    by_cases hgt : bytesGt e r
    · simp [hgt]
    · simp only [hgt, if_false]
      rcases ih (if f = zeroEntry then e else f) with h | h
      · exact Or.inl (List.mem_cons_of_mem _ h)
      · rw [h]
        by_cases hz : f = zeroEntry
        · simp [hz]
        · simp [hz]

theorem sigCacheScan_mem (r : List Nat) (s : List (List Nat)) (hs : s ≠ []) :
    sigCacheScan r zeroEntry s ∈ s := by
  match s with
  | [] => exact absurd rfl hs
  | e :: rest =>
    rw [sigCacheScan_cons]
    by_cases hgt : bytesGt e r
    · simp [hgt]
    · rw [if_neg hgt, if_pos rfl]
      rcases sigCacheScan_mem_or r e rest with h | h
      · exact List.mem_cons_of_mem _ h
      · rw [h]; exact List.mem_cons_self _ _

theorem mem_mapInsert_self (key : List Nat) (m : List (List Nat)) :
    key ∈ mapInsert key m := by
  unfold mapInsert
  split
  · assumption
  · simp

theorem mem_of_mem_mapInsert {k key : List Nat} {m : List (List Nat)}
    (h : k ∈ mapInsert key m) : k ∈ m ∨ k = key := by
  unfold mapInsert at h
  split at h
  · exact Or.inl h
  · rcases List.mem_append.mp h with h' | h'
    · exact Or.inl h'
    · exact Or.inr (List.mem_singleton.mp h')

theorem length_mapInsert_le (key : List Nat) (m : List (List Nat)) :
    (mapInsert key m).length ≤ m.length + 1 := by
  unfold mapInsert
  split
  · omega
  · simp

theorem SigCache.Add_maxEntries (hash : List Nat → List Nat)
    (draw : Option (List Nat)) (c : SigCache) (d g p : List Nat) :
    (SigCache.Add hash draw c d g p).maxEntries = c.maxEntries := by
  unfold SigCache.Add
  split
  · rfl
  · split
    · cases draw <;> rfl
    · rfl

theorem SigCache.Add_cacheNonce (hash : List Nat → List Nat)
    (draw : Option (List Nat)) (c : SigCache) (d g p : List Nat) :
    (SigCache.Add hash draw c d g p).cacheNonce = c.cacheNonce := by
  unfold SigCache.Add
  split
  · rfl
  · split
    · cases draw <;> rfl
    · rfl

theorem SigCache.Add_length (hash : List Nat → List Nat)
    (draw : Option (List Nat)) (c : SigCache) (d g p : List Nat)
    (h : c.validSigs.length ≤ c.maxEntries) :
    (SigCache.Add hash draw c d g p).validSigs.length ≤ c.maxEntries := by
  unfold SigCache.Add
  split
  · exact h
  · rename_i hpos
    split
    · rename_i hfull
      cases draw with
      | none => exact h
      | some r =>
        have hne : c.validSigs ≠ [] := by
          intro hnil
          rw [hnil] at hfull
          simp at hfull
          omega
        have hmem := sigCacheScan_mem r c.validSigs hne
        have herase := List.length_erase_of_mem hmem
        calc (mapInsert (newSigKey hash c.cacheNonce d g p)
                (c.validSigs.erase (sigCacheScan r zeroEntry c.validSigs))).length
            ≤ (c.validSigs.erase (sigCacheScan r zeroEntry c.validSigs)).length + 1 :=
              length_mapInsert_le _ _
          _ ≤ c.maxEntries := by
              rw [herase]
              have : c.validSigs.length ≥ 1 := by
                cases hl : c.validSigs with
                | nil => exact absurd hl hne
                | cons a l => simp [hl]
              omega
    · rename_i hroom
      calc (mapInsert (newSigKey hash c.cacheNonce d g p) c.validSigs).length
          ≤ c.validSigs.length + 1 := length_mapInsert_le _ _
        _ ≤ c.maxEntries := by omega

theorem SigCache.runAdds_maxEntries (hash : List Nat → List Nat)
    (evs : List AddEvent) (c : SigCache) :
    (SigCache.runAdds hash evs c).maxEntries = c.maxEntries := by
  induction evs generalizing c with
  | nil => rfl
  | cons ev evs ih =>
    show (SigCache.runAdds hash evs _).maxEntries = _
    rw [ih]
    exact SigCache.Add_maxEntries hash ev.draw _ ev.sigHash ev.sig ev.pubKey

theorem SigCache.runAdds_cacheNonce (hash : List Nat → List Nat)
    (evs : List AddEvent) (c : SigCache) :
    (SigCache.runAdds hash evs c).cacheNonce = c.cacheNonce := by
  induction evs generalizing c with
  | nil => rfl
  | cons ev evs ih =>
    show (SigCache.runAdds hash evs _).cacheNonce = _
    rw [ih]
    exact SigCache.Add_cacheNonce hash ev.draw _ ev.sigHash ev.sig ev.pubKey

theorem SigCache.runAdds_length (hash : List Nat → List Nat)
    (evs : List AddEvent) (c : SigCache)
    (hr : ∀ ev ∈ evs, ∀ l, List.Perm (ev.reorder l) l)
    (h : c.validSigs.length ≤ c.maxEntries) :
    (SigCache.runAdds hash evs c).validSigs.length ≤ c.maxEntries := by
  induction evs generalizing c with
  | nil => exact h
  | cons ev evs ih =>
    show (SigCache.runAdds hash evs
      (SigCache.Add hash ev.draw ⟨ev.reorder c.validSigs, c.maxEntries, c.cacheNonce⟩
        ev.sigHash ev.sig ev.pubKey)).validSigs.length ≤ c.maxEntries
    have hlen : (ev.reorder c.validSigs).length = c.validSigs.length :=
      (hr ev (List.mem_cons_self _ _) c.validSigs).length_eq
    have hstep := SigCache.Add_length hash ev.draw
      ⟨ev.reorder c.validSigs, c.maxEntries, c.cacheNonce⟩ ev.sigHash ev.sig ev.pubKey
      (by simpa [hlen] using h)
    have hmax := SigCache.Add_maxEntries hash ev.draw
      ⟨ev.reorder c.validSigs, c.maxEntries, c.cacheNonce⟩ ev.sigHash ev.sig ev.pubKey
    have := ih (SigCache.Add hash ev.draw
      ⟨ev.reorder c.validSigs, c.maxEntries, c.cacheNonce⟩ ev.sigHash ev.sig ev.pubKey)
      (fun e he l => hr e (List.mem_cons_of_mem _ he) l)
      (by rw [hmax]; exact hstep)
    rwa [hmax] at this

/-- C1: for every capacity fixed at construction and every finite sequence
of `Add` calls — any random-draw outcomes, any map iteration orders — the
number of entries resident in the `SigCache` never exceeds `maxEntries`. -/
theorem sigCache_capacity_bound (hash : List Nat → List Nat)
    (maxEntries : Nat) (nonce : List Nat) (evs : List AddEvent)
    (hr : ∀ ev ∈ evs, ∀ l, List.Perm (ev.reorder l) l) :
    (SigCache.runAdds hash evs (NewSigCache maxEntries nonce)).validSigs.length ≤
      maxEntries :=
  SigCache.runAdds_length hash evs (NewSigCache maxEntries nonce) hr (by simp [NewSigCache])

theorem sigCache_capacity_bound_witness :
    (∀ ev ∈ ([⟨keyOne, [], [], some randAll255, id⟩,
              ⟨keyTwo, [], [], some randAll255, id⟩] : List AddEvent),
      ∀ l, List.Perm (ev.reorder l) l) ∧
    (SigCache.runAdds (constHash keyOne)
      [⟨keyOne, [], [], some randAll255, id⟩, ⟨keyTwo, [], [], some randAll255, id⟩]
      (NewSigCache 1 [])).validSigs.length ≤ 1 := by
  have hr : ∀ ev ∈ ([⟨keyOne, [], [], some randAll255, id⟩,
              ⟨keyTwo, [], [], some randAll255, id⟩] : List AddEvent),
      ∀ l, List.Perm (ev.reorder l) l := by
    intro ev hev l
    simp only [List.mem_cons, List.not_mem_nil, or_false] at hev
    rcases hev with rfl | rfl
    · exact List.Perm.refl _
    · exact List.Perm.refl _
  exact ⟨hr, sigCache_capacity_bound (constHash keyOne) 1 [] _ hr⟩

/-- C2: on a store with `maxEntries ≥ 1`, an `Add` whose random draw
succeeds — or which needs no eviction — makes the triple immediately
observable: `Exists` on the same triple, with no intervening call, returns
true. -/
theorem sigCache_add_then_exists (hash : List Nat → List Nat)
    (draw : Option (List Nat)) (c : SigCache) (d g p : List Nat)
    (hmax : 1 ≤ c.maxEntries)
    (hdraw : (∃ r, draw = some r) ∨ c.validSigs.length + 1 ≤ c.maxEntries) :
    SigCache.Exists hash (SigCache.Add hash draw c d g p) d g p = true := by
  have hnonce := SigCache.Add_cacheNonce hash draw c d g p
  unfold SigCache.Exists
  rw [hnonce]
  apply decide_eq_true
  unfold SigCache.Add
  rw [if_neg (by omega)]
  by_cases hfull : c.validSigs.length + 1 > c.maxEntries
  · rw [if_pos hfull]
    rcases hdraw with ⟨r, rfl⟩ | hroom
    · exact mem_mapInsert_self _ _
    · omega
  · rw [if_neg hfull]
    cases draw <;> exact mem_mapInsert_self _ _

theorem sigCache_add_then_exists_witness :
    1 ≤ (NewSigCache 1 [] : SigCache).maxEntries ∧
    SigCache.Exists (constHash keyOne)
      (SigCache.Add (constHash keyOne) none (NewSigCache 1 []) [3] [] []) [3] [] [] = true := by
  refine ⟨by decide, sigCache_add_then_exists (constHash keyOne) none (NewSigCache 1 [])
    [3] [] [] (by decide) (Or.inr (by decide))⟩

/-- C5: when an `Add` on a full store (`maxEntries ≥ 1`) needs an eviction
and the secure random read fails, the `Add` returns with the store
completely unchanged — nothing inserted, nothing evicted — and, the
operation having no error channel, no error reaches the caller. -/
theorem sigCache_add_randFailure_unchanged (hash : List Nat → List Nat)
    (c : SigCache) (d g p : List Nat)
    (hmax : 1 ≤ c.maxEntries)
    (hfull : c.validSigs.length + 1 > c.maxEntries) :
    SigCache.Add hash none c d g p = c := by
  unfold SigCache.Add
  rw [if_neg (by omega), if_pos hfull]

theorem sigCache_add_randFailure_unchanged_witness :
    1 ≤ (SigCache.mk [keyOne] 1 []).maxEntries ∧
    (SigCache.mk [keyOne] 1 []).validSigs.length + 1 > (SigCache.mk [keyOne] 1 []).maxEntries ∧
    SigCache.Add (constHash keyTwo) none (SigCache.mk [keyOne] 1 []) [3] [] [] =
      SigCache.mk [keyOne] 1 [] :=
  ⟨by decide, by decide,
    sigCache_add_randFailure_unchanged (constHash keyTwo) (SigCache.mk [keyOne] 1 [])
      [3] [] [] (by decide) (by decide)⟩

theorem SigCache.runAdds_disabled (hash : List Nat → List Nat)
    (evs : List AddEvent) (c : SigCache)
    (hr : ∀ ev ∈ evs, ∀ l, List.Perm (ev.reorder l) l)
    (h0 : c.maxEntries = 0) (hempty : c.validSigs = []) :
    (SigCache.runAdds hash evs c).validSigs = [] := by
  induction evs generalizing c with
  | nil => exact hempty
  | cons ev evs ih =>
    show (SigCache.runAdds hash evs
      (SigCache.Add hash ev.draw ⟨ev.reorder c.validSigs, c.maxEntries, c.cacheNonce⟩
        ev.sigHash ev.sig ev.pubKey)).validSigs = []
    have hre : ev.reorder c.validSigs = [] := by
      rw [hempty]
      exact (hr ev (List.mem_cons_self _ _) []).eq_nil
    have hadd : SigCache.Add hash ev.draw
        ⟨ev.reorder c.validSigs, c.maxEntries, c.cacheNonce⟩
        ev.sigHash ev.sig ev.pubKey =
        ⟨ev.reorder c.validSigs, c.maxEntries, c.cacheNonce⟩ := by
      unfold SigCache.Add
      rw [if_pos (by simp [h0])]
    rw [hadd]
    exact ih _ (fun e he l => hr e (List.mem_cons_of_mem _ he) l) h0 hre

/-- C6: with `maxEntries = 0` the cache is inert: after any sequence of
`Add` calls nothing is resident — every `Add` left the store unmutated — and
every `Exists` call returns false. -/
theorem sigCache_disabled_inert (hash : List Nat → List Nat) (nonce : List Nat)
    (evs : List AddEvent) (d g p : List Nat)
    (hr : ∀ ev ∈ evs, ∀ l, List.Perm (ev.reorder l) l) :
    (SigCache.runAdds hash evs (NewSigCache 0 nonce)).validSigs = [] ∧
    SigCache.Exists hash (SigCache.runAdds hash evs (NewSigCache 0 nonce)) d g p = false := by
  have hempty := SigCache.runAdds_disabled hash evs (NewSigCache 0 nonce) hr rfl rfl
  refine ⟨hempty, ?_⟩
  unfold SigCache.Exists
  rw [hempty]
  simp

theorem sigCache_disabled_inert_witness :
    (∀ ev ∈ ([⟨keyOne, [], [], some randAll255, id⟩] : List AddEvent),
      ∀ l, List.Perm (ev.reorder l) l) ∧
    (SigCache.runAdds (constHash keyOne) [⟨keyOne, [], [], some randAll255, id⟩]
      (NewSigCache 0 [])).validSigs = [] ∧
    SigCache.Exists (constHash keyOne)
      (SigCache.runAdds (constHash keyOne) [⟨keyOne, [], [], some randAll255, id⟩]
        (NewSigCache 0 [])) keyOne [] [] = false := by
  have hr : ∀ ev ∈ ([⟨keyOne, [], [], some randAll255, id⟩] : List AddEvent),
      ∀ l, List.Perm (ev.reorder l) l := by
    intro ev hev l
    simp only [List.mem_cons, List.not_mem_nil, or_false] at hev
    rcases hev with rfl
    exact List.Perm.refl _
  exact ⟨hr, sigCache_disabled_inert (constHash keyOne) [] _ keyOne [] [] hr⟩

/-- C7: the derived cache key is the 256-bit hash (SHA-256, modelled by the
`hash` parameter, whose outputs have length 32) of
`nonce ++ digest ++ serialized signature ++ compressed serialized public
key`; the derivation is a pure function of those inputs, and `Exists` and
`Add` both locate entries by this same derived key. -/
theorem sigCache_key_derivation (hash : List Nat → List Nat)
    (nonce d g p : List Nat) (c : SigCache) (draw : Option (List Nat))
    (hlen : ∀ bs, (hash bs).length = 32) :
    newSigKey hash nonce d g p = hash (nonce ++ d ++ g ++ p) ∧
    SigCache.Exists hash c d g p =
      decide (newSigKey hash c.cacheNonce d g p ∈ c.validSigs) ∧
    (c.validSigs.length + 1 ≤ c.maxEntries →
      (SigCache.Add hash draw c d g p).validSigs =
        mapInsert (newSigKey hash c.cacheNonce d g p) c.validSigs) := by
  refine ⟨?_, rfl, ?_⟩
  · unfold newSigKey
    rw [hlen, ← hlen (nonce ++ d ++ g ++ p)]
    simp
  · intro hroom
    unfold SigCache.Add
    rw [if_neg (by omega), if_neg (by omega)]

theorem sigCache_key_derivation_witness :
    (∀ bs, (constHash keyTwo bs).length = 32) ∧
    (newSigKey (constHash keyTwo) [] [1] [2] [3] = constHash keyTwo ([] ++ [1] ++ [2] ++ [3]) ∧
    SigCache.Exists (constHash keyTwo) (NewSigCache 5 []) [1] [2] [3] =
      decide (newSigKey (constHash keyTwo) [] [1] [2] [3] ∈ ([] : List (List Nat))) ∧
    ((NewSigCache 5 [] : SigCache).validSigs.length + 1 ≤ 5 →
      (SigCache.Add (constHash keyTwo) none (NewSigCache 5 []) [1] [2] [3]).validSigs =
        mapInsert (newSigKey (constHash keyTwo) [] [1] [2] [3]) [])) := by
  have hlen : ∀ bs, (constHash keyTwo bs).length = 32 := fun bs => by
    simp [constHash, keyTwo]
  exact ⟨hlen, sigCache_key_derivation (constHash keyTwo) [] [1] [2] [3]
    (NewSigCache 5 []) none hlen⟩

/-- C4 counterexample: on a full store (`maxEntries = 2`, residents
`[keyTwo, keyOne]`) an `Add` of a triple whose derived key `keyOne` is
already resident still evicts: the scan (no key exceeds the all-255 draw)
falls back to `keyTwo`, which is removed, and the resident count drops from
2 to 1 — the set of resident entries changes. -/
theorem sigCache_add_idempotent_cex :
    newSigKey (constHash keyOne) [] [3] [] [] ∈
      (SigCache.mk [keyTwo, keyOne] 2 []).validSigs ∧
    (SigCache.Add (constHash keyOne) (some randAll255)
      (SigCache.mk [keyTwo, keyOne] 2 []) [3] [] []).validSigs = [keyOne] ∧
    keyTwo ∈ (SigCache.mk [keyTwo, keyOne] 2 []).validSigs ∧
    keyTwo ∉ (SigCache.Add (constHash keyOne) (some randAll255)
      (SigCache.mk [keyTwo, keyOne] 2 []) [3] [] []).validSigs ∧
    (SigCache.Add (constHash keyOne) (some randAll255)
      (SigCache.mk [keyTwo, keyOne] 2 []) [3] [] []).validSigs.length ≠
      (SigCache.mk [keyTwo, keyOne] 2 []).validSigs.length := by decide

/-- C4 as amended: `Add` of a triple whose derived key is already resident
leaves the store (entries and count) unchanged provided the cache is
disabled or the insertion triggers no eviction (resident count + 1 within
`maxEntries`); on a full store the eviction still runs and may remove a
different entry. -/
theorem sigCache_add_idempotent_no_eviction (hash : List Nat → List Nat)
    (draw : Option (List Nat)) (c : SigCache) (d g p : List Nat)
    (hkey : newSigKey hash c.cacheNonce d g p ∈ c.validSigs)
    (hcase : c.maxEntries = 0 ∨ c.validSigs.length + 1 ≤ c.maxEntries) :
    SigCache.Add hash draw c d g p = c := by
  unfold SigCache.Add
  rcases hcase with h0 | hroom
  · rw [if_pos (by omega)]
  · rw [if_neg (by omega), if_neg (by omega)]
    unfold mapInsert
    rw [if_pos hkey]

theorem sigCache_add_idempotent_no_eviction_witness :
    newSigKey (constHash keyOne) [] [3] [] [] ∈
      (SigCache.mk [keyOne, keyTwo] 3 []).validSigs ∧
    (SigCache.mk [keyOne, keyTwo] 3 []).validSigs.length + 1 ≤ 3 ∧
    SigCache.Add (constHash keyOne) (some randAll255)
      (SigCache.mk [keyOne, keyTwo] 3 []) [3] [] [] = SigCache.mk [keyOne, keyTwo] 3 [] :=
  ⟨by decide, by decide,
    sigCache_add_idempotent_no_eviction (constHash keyOne) (some randAll255)
      (SigCache.mk [keyOne, keyTwo] 3 []) [3] [] [] (by decide) (Or.inr (by decide))⟩

theorem sigCacheScan_stable (r f : List Nat) (s : List (List Nat))
    (hf : f ≠ zeroEntry) (hs : ∀ k ∈ s, bytesGt k r = false) :
    sigCacheScan r f s = f := by
  induction s with
  | nil => rfl
  | cons e rest ih =>
    rw [sigCacheScan_cons,
      if_neg (by simp [hs e (List.mem_cons_self e rest)]), if_neg hf]
    exact ih fun k hk => hs k (List.mem_cons_of_mem _ hk)

theorem sigCacheScan_getD (r f : List Nat) (s : List (List Nat))
    (hf : f ≠ zeroEntry) :
    sigCacheScan r f s = (s.find? fun k => bytesGt k r).getD f := by
  induction s with
  | nil => rfl
  | cons e rest ih =>
    rw [sigCacheScan_cons]
    by_cases hgt : bytesGt e r
    · have hfind : (e :: rest).find? (fun k => bytesGt k r) = some e :=
        List.find?_cons_of_pos rest hgt
      rw [if_pos hgt, hfind]
      rfl
    · have hfind : (e :: rest).find? (fun k => bytesGt k r) =
          rest.find? (fun k => bytesGt k r) :=
        List.find?_cons_of_neg rest hgt
      rw [if_neg hgt, if_neg hf, hfind]
      exact ih

theorem sigCacheScan_eq_evictSpec (r : List Nat) (s : List (List Nat)) :
    sigCacheScan r zeroEntry s = evictSpec s r := by
  induction s with
  | nil => rfl
  | cons e rest ih =>
    rw [sigCacheScan_cons]
    by_cases hgt : bytesGt e r
    · have hfind : (e :: rest).find? (fun k => bytesGt k r) = some e :=
        List.find?_cons_of_pos rest hgt
      rw [if_pos hgt]
      unfold evictSpec
      rw [hfind]
    · have hfind : (e :: rest).find? (fun k => bytesGt k r) =
          rest.find? (fun k => bytesGt k r) :=
        List.find?_cons_of_neg rest hgt
      rw [if_neg hgt, if_pos rfl]
      by_cases hez : e = zeroEntry
      · subst hez
        have hfind2 : (zeroEntry :: rest).find? (fun k => decide (k ≠ zeroEntry)) =
            rest.find? (fun k => decide (k ≠ zeroEntry)) :=
          List.find?_cons_of_neg rest (by simp)
        rw [ih]
        unfold evictSpec
        rw [hfind, hfind2]
      · rw [sigCacheScan_getD r e rest hez]
        unfold evictSpec
        rw [hfind]
        cases hf2 : rest.find? (fun k => bytesGt k r) with
        | some k => rfl
        | none =>
          have hfind3 : (e :: rest).find? (fun k => decide (k ≠ zeroEntry)) = some e :=
            List.find?_cons_of_pos rest (by simpa using hez)
          rw [hfind3]
          rfl

theorem evictSpec_mem (r : List Nat) (s : List (List Nat)) (hs : s ≠ []) :
    evictSpec s r ∈ s := by
  unfold evictSpec
  cases h1 : s.find? (fun k => bytesGt k r) with
  | some k => exact List.mem_of_find?_eq_some h1
  | none =>
    cases h2 : s.find? (fun k => decide (k ≠ zeroEntry)) with
    | some k => exact List.mem_of_find?_eq_some h2
    | none =>
      match s, hs with
      | e :: rest, _ =>
        have hz : e = zeroEntry := by
          have := List.find?_eq_none.mp h2 e (List.mem_cons_self e rest)
          simpa using this
        rw [← hz]
        exact List.mem_cons_self e rest

/-- C3 counterexample: a full `SigCache` (`maxEntries = 2`) holding, in
iteration order, the all-zero key then `keyOne`; no resident key exceeds the
all-255 draw, so the claim says the first entry encountered — the all-zero
key — is evicted.  The code instead keeps the all-zero key resident and
removes `keyOne`. -/
theorem sigCache_evict_first_cex :
    (∀ k ∈ (SigCache.mk [zeroEntry, keyOne] 2 []).validSigs,
      bytesGt k randAll255 = false) ∧
    (SigCache.Add (constHash keyTwo) (some randAll255)
      (SigCache.mk [zeroEntry, keyOne] 2 []) [3] [] []).validSigs =
      [zeroEntry, keyTwo] ∧
    zeroEntry ∈ (SigCache.Add (constHash keyTwo) (some randAll255)
      (SigCache.mk [zeroEntry, keyOne] 2 []) [3] [] []).validSigs ∧
    keyOne ∉ (SigCache.Add (constHash keyTwo) (some randAll255)
      (SigCache.mk [zeroEntry, keyOne] 2 []) [3] [] []).validSigs := by decide

/-- C3 as amended: on a full store (`maxEntries ≥ 1`) whose `Add` draw
succeeds, the evicted entry is exactly the first entry in iteration order
whose key is lexicographically greater than the draw; if none is greater,
the first entry encountered whose key differs from the all-zero key (or the
all-zero entry itself when it is the only resident entry).  Exactly that
resident entry is removed, then the new key is inserted. -/
theorem sigCache_evict_choice (hash : List Nat → List Nat) (c : SigCache)
    (d g p r : List Nat)
    (hmax : 1 ≤ c.maxEntries) (hfull : c.validSigs.length + 1 > c.maxEntries) :
    (SigCache.Add hash (some r) c d g p).validSigs =
      mapInsert (newSigKey hash c.cacheNonce d g p)
        (c.validSigs.erase (evictSpec c.validSigs r)) ∧
    evictSpec c.validSigs r ∈ c.validSigs := by
  have hne : c.validSigs ≠ [] := by
    intro hnil
    rw [hnil] at hfull
    simp at hfull
    omega
  constructor
  · unfold SigCache.Add
    rw [if_neg (by omega), if_pos hfull]
    dsimp only
    rw [sigCacheScan_eq_evictSpec]
  · exact evictSpec_mem r c.validSigs hne

theorem sigCache_evict_choice_witness :
    1 ≤ (SigCache.mk [keyOne, keyTwo] 2 []).maxEntries ∧
    (SigCache.mk [keyOne, keyTwo] 2 []).validSigs.length + 1 >
      (SigCache.mk [keyOne, keyTwo] 2 []).maxEntries ∧
    ((SigCache.Add (constHash keyTwo) (some zeroEntry)
        (SigCache.mk [keyOne, keyTwo] 2 []) [3] [] []).validSigs =
      mapInsert (newSigKey (constHash keyTwo) [] [3] [] [])
        ((SigCache.mk [keyOne, keyTwo] 2 []).validSigs.erase
          (evictSpec [keyOne, keyTwo] zeroEntry)) ∧
    evictSpec [keyOne, keyTwo] zeroEntry ∈ (SigCache.mk [keyOne, keyTwo] 2 []).validSigs) :=
  ⟨by decide, by decide,
    sigCache_evict_choice (constHash keyTwo) (SigCache.mk [keyOne, keyTwo] 2 [])
      [3] [] [] zeroEntry (by decide) (by decide)⟩

/-- C10: in `SigCache.Add`'s eviction scan with a successful draw, when no
resident key is lexicographically greater than the draw, the first iterated
entry is the all-zero key, and at least one further entry is resident, the
evicted entry is not the first-encountered all-zero entry but the next one:
the fallback tracks the first entry whose key differs from the zero value. -/
theorem sigCache_zeroEntry_fallback_skips_first (hash : List Nat → List Nat)
    (c : SigCache) (d g p r e : List Nat) (rest : List (List Nat))
    (hv : c.validSigs = zeroEntry :: e :: rest)
    (hgt : ∀ k ∈ c.validSigs, bytesGt k r = false)
    (he : e ≠ zeroEntry)
    (hmax : 1 ≤ c.maxEntries) (hfull : c.validSigs.length + 1 > c.maxEntries) :
    sigCacheScan r zeroEntry c.validSigs = e ∧ e ≠ zeroEntry ∧
    (SigCache.Add hash (some r) c d g p).validSigs =
      mapInsert (newSigKey hash c.cacheNonce d g p) (zeroEntry :: rest) := by
  rw [hv] at hgt
  have hscan : sigCacheScan r zeroEntry c.validSigs = e := by
    rw [hv, sigCacheScan_cons,
      if_neg (by simp [hgt zeroEntry (List.mem_cons_self _ _)]), if_pos rfl,
      sigCacheScan_cons,
      if_neg (by simp [hgt e (List.mem_cons_of_mem _ (List.mem_cons_self _ _))]),
      if_pos rfl]
    exact sigCacheScan_stable r e rest he
      fun k hk => hgt k (List.mem_cons_of_mem _ (List.mem_cons_of_mem _ hk))
  refine ⟨hscan, he, ?_⟩
  unfold SigCache.Add
  rw [if_neg (by omega), if_pos hfull]
  dsimp only
  rw [hscan, hv, List.erase_cons_tail (by simpa using (Ne.symm he)),
    List.erase_cons_head]

theorem sigCache_zeroEntry_fallback_skips_first_witness :
    (SigCache.mk [zeroEntry, keyOne] 2 []).validSigs = zeroEntry :: keyOne :: [] ∧
    (∀ k ∈ (SigCache.mk [zeroEntry, keyOne] 2 []).validSigs,
      bytesGt k randAll255 = false) ∧
    keyOne ≠ zeroEntry ∧
    (sigCacheScan randAll255 zeroEntry
        (SigCache.mk [zeroEntry, keyOne] 2 []).validSigs = keyOne ∧
      keyOne ≠ zeroEntry ∧
      (SigCache.Add (constHash keyTwo) (some randAll255)
        (SigCache.mk [zeroEntry, keyOne] 2 []) [3] [] []).validSigs =
        mapInsert (newSigKey (constHash keyTwo) [] [3] [] []) (zeroEntry :: [])) :=
  ⟨by decide, by decide, by decide,
    sigCache_zeroEntry_fallback_skips_first (constHash keyTwo)
      (SigCache.mk [zeroEntry, keyOne] 2 []) [3] [] [] randAll255 keyOne []
      (by decide) (by decide) (by decide) (by decide) (by decide)⟩

theorem newSigKey_of_length (hash : List Nat → List Nat) (nonce d g p : List Nat)
    (hlen : (hash (nonce ++ d ++ g ++ p)).length = 32) :
    newSigKey hash nonce d g p = hash (nonce ++ d ++ g ++ p) := by
  unfold newSigKey
  rw [List.take_of_length_le (le_of_eq hlen), hlen]
  simp

theorem concatEncoding_inj (n d1 s1 p1 d2 s2 p2 : List Nat)
    (hd1 : d1.length = 32) (hd2 : d2.length = 32)
    (hp1 : p1.length = 33) (hp2 : p2.length = 33)
    (h : n ++ d1 ++ s1 ++ p1 = n ++ d2 ++ s2 ++ p2) :
    d1 = d2 ∧ s1 = s2 ∧ p1 = p2 := by
  have h' : n ++ (d1 ++ (s1 ++ p1)) = n ++ (d2 ++ (s2 ++ p2)) := by
    simpa [List.append_assoc] using h
  have h1 : d1 ++ (s1 ++ p1) = d2 ++ (s2 ++ p2) :=
    List.append_cancel_left h'
  obtain ⟨hdd, hsp⟩ := List.append_inj h1 (by omega)
  have hslen : s1.length = s2.length := by
    have := congrArg List.length hsp
    simp at this
    omega
  obtain ⟨hss, hpp⟩ := List.append_inj hsp hslen
  exact ⟨hdd, hss, hpp⟩

theorem SigCache.mem_of_mem_Add (hash : List Nat → List Nat)
    (draw : Option (List Nat)) (c : SigCache) (d g p : List Nat) (k : List Nat)
    (hk : k ∈ (SigCache.Add hash draw c d g p).validSigs) :
    k ∈ c.validSigs ∨ k = newSigKey hash c.cacheNonce d g p := by
  unfold SigCache.Add at hk
  split at hk
  · exact Or.inl hk
  · split at hk
    · cases draw with
      | none => exact Or.inl hk
      | some r =>
        rcases mem_of_mem_mapInsert hk with h | h
        · exact Or.inl (List.mem_of_mem_erase h)
        · exact Or.inr h
    · rcases mem_of_mem_mapInsert hk with h | h
      · exact Or.inl h
      · exact Or.inr h

theorem SigCache.runAdds_mem (hash : List Nat → List Nat) (evs : List AddEvent)
    (c : SigCache) (k : List Nat)
    (hr : ∀ ev ∈ evs, ∀ l, List.Perm (ev.reorder l) l)
    (hk : k ∈ (SigCache.runAdds hash evs c).validSigs) :
    k ∈ c.validSigs ∨
      ∃ ev ∈ evs, k = newSigKey hash c.cacheNonce ev.sigHash ev.sig ev.pubKey := by
  induction evs generalizing c with
  | nil => exact Or.inl hk
  | cons ev evs ih =>
    have hk' : k ∈ (SigCache.runAdds hash evs
        (SigCache.Add hash ev.draw ⟨ev.reorder c.validSigs, c.maxEntries, c.cacheNonce⟩
          ev.sigHash ev.sig ev.pubKey)).validSigs := hk
    rcases ih _ (fun e he l => hr e (List.mem_cons_of_mem _ he) l) hk' with
      h | ⟨ev', hev', hkey⟩
    · rcases SigCache.mem_of_mem_Add hash ev.draw
        ⟨ev.reorder c.validSigs, c.maxEntries, c.cacheNonce⟩
        ev.sigHash ev.sig ev.pubKey k h with h2 | h2
      · exact Or.inl ((hr ev (List.mem_cons_self _ _) c.validSigs).mem_iff.mp h2)
      · exact Or.inr ⟨ev, List.mem_cons_self _ _, h2⟩
    · rw [SigCache.Add_cacheNonce] at hkey
      exact Or.inr ⟨ev', List.mem_cons_of_mem _ hev', hkey⟩

/-- C8: no false positives.  Starting from a fresh cache, after any sequence
of `Add` calls (any draws, any iteration orders), `Exists` on a triple whose
components differ from every added triple returns false — assuming the hash
is collision-free (injective with 32-byte outputs) and the serialized inputs
have their Go widths (32-byte digests, 33-byte compressed public keys), so
that distinct triples always derive distinct keys. -/
theorem sigCache_no_false_positives (hash : List Nat → List Nat)
    (nonce : List Nat) (maxEntries : Nat) (evs : List AddEvent) (d g p : List Nat)
    (hinj : Function.Injective hash)
    (hlen : ∀ bs, (hash bs).length = 32)
    (hr : ∀ ev ∈ evs, ∀ l, List.Perm (ev.reorder l) l)
    (hwf : ∀ ev ∈ evs, ev.sigHash.length = 32 ∧ ev.pubKey.length = 33)
    (hd : d.length = 32) (hp : p.length = 33)
    (hnew : ∀ ev ∈ evs, ¬(ev.sigHash = d ∧ ev.sig = g ∧ ev.pubKey = p)) :
    SigCache.Exists hash (SigCache.runAdds hash evs (NewSigCache maxEntries nonce))
      d g p = false := by
  have hnonce := SigCache.runAdds_cacheNonce hash evs (NewSigCache maxEntries nonce)
  unfold SigCache.Exists
  rw [hnonce]
  apply decide_eq_false
  intro hk
  rcases SigCache.runAdds_mem hash evs (NewSigCache maxEntries nonce) _ hr hk with
    h | ⟨ev, hev, hkey⟩
  · exact List.not_mem_nil _ h
  · have hkey' : newSigKey hash nonce d g p =
        newSigKey hash nonce ev.sigHash ev.sig ev.pubKey := hkey
    rw [newSigKey_of_length hash nonce d g p (hlen _),
      newSigKey_of_length hash nonce ev.sigHash ev.sig ev.pubKey (hlen _)] at hkey'
    obtain ⟨h1, h2, h3⟩ := concatEncoding_inj nonce d g p ev.sigHash ev.sig ev.pubKey
      hd (hwf ev hev).1 hp (hwf ev hev).2 (hinj hkey')
    exact hnew ev hev ⟨h1.symm, h2.symm, h3.symm⟩

theorem encHash_injective : Function.Injective encHash := by
  intro a b h
  have h' : Encodable.encode a = Encodable.encode b := by
    have := congrArg List.headI h
    simpa [encHash] using this
  exact Encodable.encode_injective h'

theorem encHash_length (bs : List Nat) : (encHash bs).length = 32 := by
  simp [encHash]

theorem sigCache_no_false_positives_witness :
    Function.Injective encHash ∧
    (∀ bs, (encHash bs).length = 32) ∧
    (∀ ev ∈ ([⟨List.replicate 32 0, [], List.replicate 33 0, none, id⟩] : List AddEvent),
      ∀ l, List.Perm (ev.reorder l) l) ∧
    (∀ ev ∈ ([⟨List.replicate 32 0, [], List.replicate 33 0, none, id⟩] : List AddEvent),
      ev.sigHash.length = 32 ∧ ev.pubKey.length = 33) ∧
    (List.replicate 32 1).length = 32 ∧
    (List.replicate 33 0).length = 33 ∧
    (∀ ev ∈ ([⟨List.replicate 32 0, [], List.replicate 33 0, none, id⟩] : List AddEvent),
      ¬(ev.sigHash = List.replicate 32 1 ∧ ev.sig = ([] : List Nat) ∧
        ev.pubKey = List.replicate 33 0)) ∧
    SigCache.Exists encHash
      (SigCache.runAdds encHash
        [⟨List.replicate 32 0, [], List.replicate 33 0, none, id⟩]
        (NewSigCache 5 keyOne))
      (List.replicate 32 1) [] (List.replicate 33 0) = false := by
  have hr : ∀ ev ∈ ([⟨List.replicate 32 0, [], List.replicate 33 0, none, id⟩] :
      List AddEvent), ∀ l, List.Perm (ev.reorder l) l := by
    intro ev hev l
    simp only [List.mem_cons, List.not_mem_nil, or_false] at hev
    rcases hev with rfl
    exact List.Perm.refl _
  have hwf : ∀ ev ∈ ([⟨List.replicate 32 0, [], List.replicate 33 0, none, id⟩] :
      List AddEvent), ev.sigHash.length = 32 ∧ ev.pubKey.length = 33 := by
    intro ev hev
    simp only [List.mem_cons, List.not_mem_nil, or_false] at hev
    rcases hev with rfl
    exact ⟨by decide, by decide⟩
  have hnew : ∀ ev ∈ ([⟨List.replicate 32 0, [], List.replicate 33 0, none, id⟩] :
      List AddEvent), ¬(ev.sigHash = List.replicate 32 1 ∧ ev.sig = ([] : List Nat) ∧
        ev.pubKey = List.replicate 33 0) := by
    intro ev hev
    simp only [List.mem_cons, List.not_mem_nil, or_false] at hev
    rcases hev with rfl
    intro hcontra
    exact absurd hcontra.1 (by decide)
  exact ⟨encHash_injective, encHash_length, hr, hwf, by decide, by decide, hnew,
    sigCache_no_false_positives encHash keyOne 5
      [⟨List.replicate 32 0, [], List.replicate 33 0, none, id⟩]
      (List.replicate 32 1) [] (List.replicate 33 0)
      encHash_injective encHash_length hr hwf (by decide) (by decide) hnew⟩

theorem stringSigCacheScan_cons (r f e : List Nat) (rest : List (List Nat)) :
    stringSigCacheScan r f (e :: rest) =
      if bytesGt e r then e
      else stringSigCacheScan r (if f = ([] : List Nat) then e else f) rest := rfl

theorem stringSigCache_Add_maxEntries (hash : List Nat → List Nat)
    (draw : Option (List Nat)) (c : StringSigCache) (d g p : List Nat) :
    (StringSigCache.Add hash draw c d g p).maxEntries = c.maxEntries := by
  unfold StringSigCache.Add
  split
  · rfl
  · split
    · cases draw <;> rfl
    · rfl

theorem stringSigCache_Add_cacheNonce (hash : List Nat → List Nat)
    (draw : Option (List Nat)) (c : StringSigCache) (d g p : List Nat) :
    (StringSigCache.Add hash draw c d g p).cacheNonce = c.cacheNonce := by
  unfold StringSigCache.Add
  split
  · rfl
  · split
    · cases draw <;> rfl
    · rfl

theorem stringSigCache_runAdds_cacheNonce (hash : List Nat → List Nat)
    (evs : List AddEvent) (c : StringSigCache) :
    (StringSigCache.runAdds hash evs c).cacheNonce = c.cacheNonce := by
  induction evs generalizing c with
  | nil => rfl
  | cons ev evs ih =>
    show (StringSigCache.runAdds hash evs _).cacheNonce = _
    rw [ih]
    exact stringSigCache_Add_cacheNonce hash ev.draw _ ev.sigHash ev.sig ev.pubKey

theorem sigCacheScan_eq_string (r f : List Nat) (s : List (List Nat))
    (hfz : f ≠ zeroEntry) (hfe : f ≠ []) :
    sigCacheScan r f s = stringSigCacheScan r f s := by
  induction s with
  | nil => rfl
  | cons e rest ih =>
    rw [sigCacheScan_cons, stringSigCacheScan_cons, if_neg hfz, if_neg hfe]
    by_cases hgt : bytesGt e r
    · rw [if_pos hgt, if_pos hgt]
    · rw [if_neg hgt, if_neg hgt]
      exact ih

theorem SigCache.Add_validSigs_eq_string (hash : List Nat → List Nat)
    (v : List (List Nat)) (max : Nat) (nonce d g p : List Nat)
    (draw : Option (List Nat))
    (hlen : ∀ bs, (hash bs).length = 32)
    (hz : zeroEntry ∉ v) (he : ([] : List Nat) ∉ v) :
    (SigCache.Add hash draw ⟨v, max, nonce⟩ d g p).validSigs =
      (StringSigCache.Add hash draw ⟨v, max, nonce⟩ d g p).validSigs := by
  have hkey : newSigKey hash nonce d g p = newSigKeyString hash nonce d g p :=
    newSigKey_of_length hash nonce d g p (hlen _)
  unfold SigCache.Add StringSigCache.Add
  dsimp only
  by_cases h0 : max ≤ 0
  · rw [if_pos h0, if_pos h0]
  · rw [if_neg h0, if_neg h0]
    by_cases hfull : v.length + 1 > max
    · rw [if_pos hfull, if_pos hfull]
      cases draw with
      | none => rfl
      | some r =>
        dsimp only
        have hv : v ≠ [] := by
          intro hnil
          rw [hnil] at hfull
          simp at hfull
          omega
        have hscan : sigCacheScan r zeroEntry v = stringSigCacheScan r [] v := by
          match v, hv with
          | e :: rest, _ =>
            rw [sigCacheScan_cons, stringSigCacheScan_cons, if_pos rfl, if_pos rfl]
            by_cases hgt : bytesGt e r
            · rw [if_pos hgt, if_pos hgt]
            · rw [if_neg hgt, if_neg hgt]
              exact sigCacheScan_eq_string r e rest
                (fun hc => hz (hc ▸ List.mem_cons_self e rest))
                (fun hc => he (hc ▸ List.mem_cons_self e rest))
        rw [hscan, hkey]
    · rw [if_neg hfull, if_neg hfull]
      dsimp only
      rw [hkey]

theorem SigCache.runAdds_validSigs_eq_string (hash : List Nat → List Nat)
    (evs : List AddEvent) (v : List (List Nat)) (max : Nat) (nonce : List Nat)
    (hlen : ∀ bs, (hash bs).length = 32)
    (hzhash : ∀ bs, hash bs ≠ zeroEntry)
    (hr : ∀ ev ∈ evs, ∀ l, List.Perm (ev.reorder l) l)
    (hz : zeroEntry ∉ v) (he : ([] : List Nat) ∉ v) :
    (SigCache.runAdds hash evs ⟨v, max, nonce⟩).validSigs =
      (StringSigCache.runAdds hash evs ⟨v, max, nonce⟩).validSigs ∧
    zeroEntry ∉ (SigCache.runAdds hash evs ⟨v, max, nonce⟩).validSigs ∧
    ([] : List Nat) ∉ (SigCache.runAdds hash evs ⟨v, max, nonce⟩).validSigs := by
  induction evs generalizing v with
  | nil => exact ⟨rfl, hz, he⟩
  | cons ev evs ih =>
    have hperm := hr ev (List.mem_cons_self _ _) v
    have hz' : zeroEntry ∉ ev.reorder v := fun h => hz (hperm.mem_iff.mp h)
    have he' : ([] : List Nat) ∉ ev.reorder v := fun h => he (hperm.mem_iff.mp h)
    have hkeyz : ∀ k, k = newSigKey hash nonce ev.sigHash ev.sig ev.pubKey →
        k ≠ zeroEntry ∧ k ≠ ([] : List Nat) := by
      intro k hk
      rw [newSigKey_of_length hash nonce ev.sigHash ev.sig ev.pubKey (hlen _)] at hk
      constructor
      · rw [hk]; exact hzhash _
      · rw [hk]
        intro hnil
        have := hlen (nonce ++ ev.sigHash ++ ev.sig ++ ev.pubKey)
        rw [hnil] at this
        simp at this
    show (SigCache.runAdds hash evs (SigCache.Add hash ev.draw
        ⟨ev.reorder v, max, nonce⟩ ev.sigHash ev.sig ev.pubKey)).validSigs =
      (StringSigCache.runAdds hash evs (StringSigCache.Add hash ev.draw
        ⟨ev.reorder v, max, nonce⟩ ev.sigHash ev.sig ev.pubKey)).validSigs ∧
      zeroEntry ∉ (SigCache.runAdds hash evs (SigCache.Add hash ev.draw
        ⟨ev.reorder v, max, nonce⟩ ev.sigHash ev.sig ev.pubKey)).validSigs ∧
      ([] : List Nat) ∉ (SigCache.runAdds hash evs (SigCache.Add hash ev.draw
        ⟨ev.reorder v, max, nonce⟩ ev.sigHash ev.sig ev.pubKey)).validSigs
    rcases hA : SigCache.Add hash ev.draw ⟨ev.reorder v, max, nonce⟩
      ev.sigHash ev.sig ev.pubKey with ⟨w, m, n⟩
    rcases hB : StringSigCache.Add hash ev.draw ⟨ev.reorder v, max, nonce⟩
      ev.sigHash ev.sig ev.pubKey with ⟨w2, m2, n2⟩
    have hm : m = max := by
      have := SigCache.Add_maxEntries hash ev.draw ⟨ev.reorder v, max, nonce⟩
        ev.sigHash ev.sig ev.pubKey
      rw [hA] at this
      exact this
    have hn : n = nonce := by
      have := SigCache.Add_cacheNonce hash ev.draw ⟨ev.reorder v, max, nonce⟩
        ev.sigHash ev.sig ev.pubKey
      rw [hA] at this
      exact this
    have hm2 : m2 = max := by
      have := stringSigCache_Add_maxEntries hash ev.draw ⟨ev.reorder v, max, nonce⟩
        ev.sigHash ev.sig ev.pubKey
      rw [hB] at this
      exact this
    have hn2 : n2 = nonce := by
      have := stringSigCache_Add_cacheNonce hash ev.draw ⟨ev.reorder v, max, nonce⟩
        ev.sigHash ev.sig ev.pubKey
      rw [hB] at this
      exact this
    have hw : w = w2 := by
      have := SigCache.Add_validSigs_eq_string hash (ev.reorder v) max nonce
        ev.sigHash ev.sig ev.pubKey ev.draw hlen hz' he'
      rw [hA, hB] at this
      exact this
    have hzw : zeroEntry ∉ w := by
      intro h
      have h' : zeroEntry ∈ (SigCache.Add hash ev.draw ⟨ev.reorder v, max, nonce⟩
          ev.sigHash ev.sig ev.pubKey).validSigs := by
        rw [hA]
        exact h
      rcases SigCache.mem_of_mem_Add hash ev.draw ⟨ev.reorder v, max, nonce⟩
        ev.sigHash ev.sig ev.pubKey zeroEntry h' with h'' | h''
      · exact hz' h''
      · exact (hkeyz zeroEntry h'').1 rfl
    have hew : ([] : List Nat) ∉ w := by
      intro h
      have h' : ([] : List Nat) ∈ (SigCache.Add hash ev.draw ⟨ev.reorder v, max, nonce⟩
          ev.sigHash ev.sig ev.pubKey).validSigs := by
        rw [hA]
        exact h
      rcases SigCache.mem_of_mem_Add hash ev.draw ⟨ev.reorder v, max, nonce⟩
        ev.sigHash ev.sig ev.pubKey ([] : List Nat) h' with h'' | h''
      · exact he' h''
      · exact (hkeyz ([] : List Nat) h'').2 rfl
    subst hm hn hm2 hn2 hw
    exact ih w (fun e hee l => hr e (List.mem_cons_of_mem _ hee) l) hzw hew

/-- C9 counterexample: same hash, same nonce, same `maxEntries = 2`, same
three `Add` calls with identical draws and iteration orders.  The first two
adds insert the all-zero key and `keyOne` into both variants; the third add
needs an eviction, no key exceeds the all-255 draw, and the fallbacks
diverge: `SigCache` keeps the all-zero key and evicts `keyOne`, while
`StringSigCache` evicts the all-zero key.  An identical `Exists` call on the
second triple then returns false on one variant and true on the other. -/
theorem sigCache_string_equiv_cex :
    SigCache.Exists selHash
      (SigCache.runAdds selHash
        [⟨[0], [], [], none, id⟩, ⟨[1], [], [], none, id⟩,
         ⟨[3], [], [], some randAll255, id⟩]
        (NewSigCache 2 [])) [1] [] [] = false ∧
    StringSigCache.Exists selHash
      (StringSigCache.runAdds selHash
        [⟨[0], [], [], none, id⟩, ⟨[1], [], [], none, id⟩,
         ⟨[3], [], [], some randAll255, id⟩]
        (NewStringSigCache 2 [])) [1] [] [] = true := by decide

/-- C9 as amended: `SigCache` and `StringSigCache` are observationally
equivalent — same nonce, same `maxEntries`, same draws, same iteration
orders give identical resident key sets and identical `Exists` answers —
provided the hash (32-byte outputs) never produces the all-zero key, the one
value on which the two fallback sentinels (`zeroEntry` versus the empty
string) disagree. -/
theorem sigCache_string_observational_equiv (hash : List Nat → List Nat)
    (nonce : List Nat) (maxEntries : Nat) (evs : List AddEvent) (d g p : List Nat)
    (hlen : ∀ bs, (hash bs).length = 32)
    (hzhash : ∀ bs, hash bs ≠ zeroEntry)
    (hr : ∀ ev ∈ evs, ∀ l, List.Perm (ev.reorder l) l) :
    (SigCache.runAdds hash evs (NewSigCache maxEntries nonce)).validSigs =
      (StringSigCache.runAdds hash evs (NewStringSigCache maxEntries nonce)).validSigs ∧
    SigCache.Exists hash (SigCache.runAdds hash evs (NewSigCache maxEntries nonce))
        d g p =
      StringSigCache.Exists hash
        (StringSigCache.runAdds hash evs (NewStringSigCache maxEntries nonce)) d g p := by
  have hmain := SigCache.runAdds_validSigs_eq_string hash evs [] maxEntries nonce
    hlen hzhash hr (List.not_mem_nil _) (List.not_mem_nil _)
  have hkey : newSigKey hash nonce d g p = newSigKeyString hash nonce d g p :=
    newSigKey_of_length hash nonce d g p (hlen _)
  refine ⟨hmain.1, ?_⟩
  unfold SigCache.Exists StringSigCache.Exists NewSigCache NewStringSigCache
  rw [SigCache.runAdds_cacheNonce, stringSigCache_runAdds_cacheNonce]
  dsimp only
  rw [hkey]
  rw [hmain.1]

theorem sigCache_string_observational_equiv_witness :
    (∀ bs, (constHash keyOne bs).length = 32) ∧
    (∀ bs, constHash keyOne bs ≠ zeroEntry) ∧
    (∀ ev ∈ ([⟨[5], [6], [7], some zeroEntry, id⟩] : List AddEvent),
      ∀ l, List.Perm (ev.reorder l) l) ∧
    ((SigCache.runAdds (constHash keyOne) [⟨[5], [6], [7], some zeroEntry, id⟩]
        (NewSigCache 3 keyTwo)).validSigs =
      (StringSigCache.runAdds (constHash keyOne) [⟨[5], [6], [7], some zeroEntry, id⟩]
        (NewStringSigCache 3 keyTwo)).validSigs ∧
    SigCache.Exists (constHash keyOne)
        (SigCache.runAdds (constHash keyOne) [⟨[5], [6], [7], some zeroEntry, id⟩]
          (NewSigCache 3 keyTwo)) [5] [6] [7] =
      StringSigCache.Exists (constHash keyOne)
        (StringSigCache.runAdds (constHash keyOne) [⟨[5], [6], [7], some zeroEntry, id⟩]
          (NewStringSigCache 3 keyTwo)) [5] [6] [7]) := by
  have hlen : ∀ bs, (constHash keyOne bs).length = 32 := fun bs => by
    simp [constHash, keyOne]
  have hzhash : ∀ bs, constHash keyOne bs ≠ zeroEntry := fun bs h =>
    absurd (show keyOne = zeroEntry from h) (by decide)
  have hr : ∀ ev ∈ ([⟨[5], [6], [7], some zeroEntry, id⟩] : List AddEvent),
      ∀ l, List.Perm (ev.reorder l) l := by
    intro ev hev l
    simp only [List.mem_cons, List.not_mem_nil, or_false] at hev
    rcases hev with rfl
    exact List.Perm.refl _
  exact ⟨hlen, hzhash, hr,
    sigCache_string_observational_equiv (constHash keyOne) keyTwo 3
      [⟨[5], [6], [7], some zeroEntry, id⟩] [5] [6] [7] hlen hzhash hr⟩
